import Mathlib

/-!
Verification of the skip-gram tutorial's core functions.

This file gives a shallow embedding of the two algorithmic functions of the
repository (notebook `tutorial-visualize-embeddings.ipynb`):

* `generate_batch` — the stateful skip-gram batch sampler.  The Python global
  `data_index` is made an explicit input/output; the injected randomness of
  `random.sample` is an explicit function argument constrained by
  `SampleSpec` (the documented contract of `random.sample`); run-time errors
  of the Python code (assert failures, `IndexError`, the `TypeError` raised
  by the slice assignment `buffer[:] = data[:span]` on a `collections.deque`,
  `ValueError` of `random.sample`, `ZeroDivisionError` of `%`) are modelled
  by `Except`, whose error value also records the value of the global
  `data_index` at the moment the exception escapes.  Stores into the
  `np.int32` output arrays are modelled by truncation `int32` (`% 2^32`).

* `build_dataset` — the vocabulary builder.  Python `dict` (insertion order,
  in-place overwrite of an existing key) and `collections.Counter` with
  `most_common` (stable sort by descending count) are modelled by
  association lists.
-/

/-- Truncation performed by storing a value into an `np.int32` cell
(bit-pattern, i.e. value modulo `2^32`). -/
def int32 (x : ℕ) : ℕ := x % 4294967296

/-- The Python run-time errors that the modelled code can raise. -/
inductive PyErr where
  | assertionError
  | typeError
  | indexError
  | valueError
  | zeroDivisionError
deriving DecidableEq

/-- An injected randomness source replacing `random.sample`: given the index
of the current group, the population and the sample size, it yields the list
`words_to_use`. -/
def SampleFn : Type := ℕ → List ℕ → ℕ → List ℕ

/-- The contract of Python's `random.sample population k` (for `k` at most
the population size and a duplicate-free population): it returns `k`
pairwise-distinct elements of the population. -/
def SampleSpec (rand : SampleFn) : Prop :=
  ∀ i pop k, k ≤ pop.length → pop.Nodup →
    (rand i pop k).length = k ∧ (rand i pop k).Nodup ∧
      ∀ x ∈ rand i pop k, x ∈ pop

/-- A concrete deterministic sampler (take the first `k` candidates), used to
instantiate theorems at concrete inputs. -/
def takeSample : SampleFn := fun _ pop k => pop.take k

/-- The Python slice `data[s : s + span]`: the window of (up to) `span`
corpus values starting at corpus position `s`. -/
def windowAt (data : List ℕ) (span s : ℕ) : List ℕ :=
  (data.drop s).take span

/-- `context_words = [w for w in range(span) if w != skip_window]`. -/
def ctxPositions (span sw : ℕ) : List ℕ :=
  (List.range span).filter (fun w => decide (w ≠ sw))

/-- `buffer.append x` on a `collections.deque` of capacity `span`: append on
the right, evicting from the left when full. -/
def pushBuf (span : ℕ) (buf : List ℕ) (x : ℕ) : List ℕ :=
  let b := buf ++ [x]
  b.drop (b.length - span)

/-- The inner loop `for j, context_word in enumerate(words_to_use)`: for each
chosen window position, store `buffer[skip_window]` into `batch` and
`buffer[context_word]` into `labels`; an out-of-range buffer index raises
`IndexError`. -/
def emitGroup (buf : List ℕ) (sw : ℕ) :
    List ℕ → List ℕ → List ℕ → Except PyErr (List ℕ × List ℕ)
  | [], accB, accL => .ok (accB, accL)
  | cw :: rest, accB, accL =>
    match buf.get? sw with
    | none => .error .indexError
    | some c =>
      match buf.get? cw with
      | none => .error .indexError
      | some x => emitGroup buf sw rest (accB ++ [int32 c]) (accL ++ [int32 x])

/-- The main loop `for i in range(batch_size // num_skips)` of
`generate_batch`.  Arguments: group index `i`, remaining groups `g`, window
`buf`, cursor `d`, and the accumulated `batch` and `labels` contents.  On
success it returns the two output lists together with the final window and
cursor; on error it returns the error and the cursor at that moment.  The
branch `if data_index == len(data)` executes `buffer[:] = data[:span]`,
which on a `collections.deque` raises `TypeError`. -/
def sgLoop (rand : SampleFn) (data : List ℕ) (span sw ns : ℕ) :
    ℕ → ℕ → List ℕ → ℕ → List ℕ → List ℕ →
    Except (PyErr × ℕ) (List ℕ × List ℕ × List ℕ × ℕ)
  | _, 0, buf, d, accB, accL => .ok (accB, accL, buf, d)
  | i, g + 1, buf, d, accB, accL =>
    let ctx := ctxPositions span sw
    if ctx.length < ns then .error (.valueError, d)
    else
      match emitGroup buf sw (rand i ctx ns) accB accL with
      | .error e => .error (e, d)
      | .ok (accB', accL') =>
        if d = data.length then .error (.typeError, d)
        else
          match data.get? d with
          | none => .error (.indexError, d)
          | some x =>
              sgLoop rand data span sw ns (i + 1) g (pushBuf span buf x)
                (d + 1) accB' accL'

/-- Shallow embedding of `generate_batch(batch_size, num_skips, skip_window)`
from the notebook.  `d0` is the value of the global `data_index` on entry;
the result carries its value on exit (inside `.error` for the value left
behind by an escaping exception). -/
def generate_batch (rand : SampleFn) (data : List ℕ) (d0 : ℕ)
    (batch_size num_skips skip_window : ℕ) :
    Except (PyErr × ℕ) (List ℕ × List ℕ × ℕ) :=
  if num_skips = 0 then .error (.zeroDivisionError, d0)
  else if batch_size % num_skips ≠ 0 then .error (.assertionError, d0)
  else if ¬ num_skips ≤ 2 * skip_window then .error (.assertionError, d0)
  else
    let span := 2 * skip_window + 1
    let d1 := if data.length < d0 + span then 0 else d0
    let buf0 := windowAt data span d1
    match sgLoop rand data span skip_window num_skips 0
      (batch_size / num_skips) buf0 (d1 + span) [] [] with
    | .error e => .error e
    | .ok (b, l, _, dEnd) =>
      if data.length = 0 then .error (.zeroDivisionError, dEnd)
      else .ok (b, l, (dEnd + data.length - span) % data.length)

/-- A sequence of `generate_batch` calls (each with its own randomness),
threading the global cursor; stops at the first escaping exception and
returns the final cursor otherwise. -/
def iterCalls (data : List ℕ) (batch_size num_skips skip_window : ℕ) :
    List SampleFn → ℕ → Except (PyErr × ℕ) ℕ
  | [], d => .ok d
  | r :: rest, d =>
    match generate_batch r data d batch_size num_skips skip_window with
    | .error e => .error e
    | .ok (_, _, d') => iterCalls data batch_size num_skips skip_window rest d'

-- concrete sanity checks against the Python reference traces
example : generate_batch takeSample [10, 20, 30, 40, 50] 0 4 2 1 =
    .ok ([20, 20, 30, 30], [10, 30, 20, 40], 2) := rfl
example : generate_batch takeSample [0, 1, 2, 3] 0 2 2 1 =
    .ok ([1, 1], [0, 2], 1) := rfl
example : generate_batch takeSample [0, 1, 2, 3] 1 2 2 1 =
    .error (.typeError, 4) := rfl
example : generate_batch takeSample [7] 0 2 2 1 =
    .error (.indexError, 3) := rfl
example : generate_batch takeSample [1, 2, 3] 5 7 2 1 =
    .error (.assertionError, 5) := rfl

/-- Lookup in a Python `dict` modelled as an association list (keys are
pairwise distinct, so first match is the match). -/
def alGet? {α β : Type} [DecidableEq α] (d : List (α × β)) (k : α) : Option β :=
  (d.find? (fun p => decide (p.1 = k))).map Prod.snd

/-- `d[k] = v` on a Python `dict`: overwrite in place if the key exists
(keeping its insertion position), otherwise append at the end. -/
def alInsert {α β : Type} [DecidableEq α] : List (α × β) → α → β → List (α × β)
  | [], k, v => [(k, v)]
  | p :: rest, k, v =>
    if p.1 = k then (k, v) :: rest else p :: alInsert rest k v

/-- The keys of an association list, in insertion order. -/
def alKeys {α β : Type} (d : List (α × β)) : List α := d.map Prod.fst

/-- One step of `collections.Counter(words)`: increment the count of the
next word in place, or append it with count 1 on first occurrence. -/
def counterAdd : List (String × ℕ) → String → List (String × ℕ)
  | [], w => [(w, 1)]
  | p :: rest, w =>
    if p.1 = w then (p.1, p.2 + 1) :: rest else p :: counterAdd rest w

/-- `collections.Counter(words)`: word/count pairs keyed in first-occurrence
order. -/
def pyCounter (ws : List String) : List (String × ℕ) := ws.foldl counterAdd []

/-- Insert an entry into a count-descending list, before the first entry of
smaller-or-equal count (so that among equal counts, earlier entries of the
original list come first). -/
def insertDesc (x : String × ℕ) : List (String × ℕ) → List (String × ℕ)
  | [] => [x]
  | y :: ys => if y.2 ≤ x.2 then x :: y :: ys else y :: insertDesc x ys

/-- Stable sort by descending count (extensionally equal to Python's
`sorted(items, key=count, reverse=True)`, which is stable). -/
def sortDesc : List (String × ℕ) → List (String × ℕ)
  | [] => []
  | x :: xs => insertDesc x (sortDesc xs)

/-- `Counter.most_common(k)`: the `k` entries of largest count, stable
(ties keep first-occurrence order), i.e. a stable descending sort followed by
`take k`. -/
def mostCommon (c : List (String × ℕ)) (k : ℕ) : List (String × ℕ) :=
  (sortDesc c).take k

/-- The loop `for word, _ in count: dictionary[word] = len(dictionary)`. -/
def buildDict (countWords : List String) : List (String × ℕ) :=
  countWords.foldl (fun d w => alInsert d w d.length) []

/-- `dict(zip(dictionary.values(), dictionary.keys()))`: on duplicate values
the later key wins, the earlier position is kept. -/
def buildRev (dict : List (String × ℕ)) : List (ℕ × String) :=
  dict.foldl (fun r p => alInsert r p.2 p.1) []

/-- The encoding loop of `build_dataset`: map every token to
`dictionary.get(word, 0)` in order, counting the tokens that encode to 0. -/
def encodeWords (dict : List (String × ℕ)) (ws : List String) : List ℕ × ℕ :=
  ws.foldl (fun acc w =>
    let index := (alGet? dict w).getD 0
    (acc.1 ++ [index], if index = 0 then acc.2 + 1 else acc.2)) ([], 0)

/-- The words of `most_common(n_words - 1)`: the "top `V - 1` most frequent
words" of the spec. -/
def topWords (ws : List String) (nWords : ℕ) : List String :=
  (mostCommon (pyCounter ws) (nWords - 1)).map Prod.fst

/-- Shallow embedding of `build_dataset(words, n_words)` from the notebook:
returns `(data, count, dictionary, reversed_dictionary)`.  The `-1`
placeholder count of `'UNK'` is overwritten with `unk_count` before the
return, so the returned `count` carries `unk_count` at index 0 directly
(counts are `ℤ`-valued as in Python). -/
def buildDataset (ws : List String) (nWords : ℕ) :
    List ℕ × List (String × ℤ) × List (String × ℕ) × List (ℕ × String) :=
  let mc := mostCommon (pyCounter ws) (nWords - 1)
  let dict := buildDict ("UNK" :: mc.map Prod.fst)
  let enc := encodeWords dict ws
  (enc.1, ("UNK", (enc.2 : ℤ)) :: mc.map (fun p => (p.1, (p.2 : ℤ))),
    dict, buildRev dict)

-- concrete sanity checks against the Python reference outputs
example : buildDataset ["a", "b", "a"] 2 =
    ([1, 0, 1], [("UNK", 1), ("a", 2)], [("UNK", 0), ("a", 1)],
      [(0, "UNK"), (1, "a")]) := by decide
example : buildDataset ["UNK", "a"] 3 =
    ([1, 1], [("UNK", 0), ("UNK", 1), ("a", 1)], [("UNK", 1), ("a", 1)],
      [(1, "a")]) := by decide
example : buildDataset ["a", "b", "a", "c", "b", "a"] 3 =
    ([1, 2, 1, 0, 2, 1], [("UNK", 1), ("a", 3), ("b", 2)],
      [("UNK", 0), ("a", 1), ("b", 2)],
      [(0, "UNK"), (1, "a"), (2, "b")]) := by decide
example : buildDataset [] 5 =
    ([], [("UNK", 0)], [("UNK", 0)], [(0, "UNK")]) := by decide

/-- C3: the claim says that when the cursor reaches the corpus end mid-batch,
`generate_batch` wraps around by reloading the window from the corpus start
and that this completes without raising any exception.  The code is a slip:
the wrap branch executes `buffer[:] = data[:span]`, and `collections.deque`
does not support slice assignment, so the wrap raises `TypeError`.  At the
corpus `[0,1,2,3]` of length `span + 1` (`skip_window = 1`,
`num_skips = 2`, `batch_size = 2`), the first call from cursor 0 succeeds
and leaves the cursor at 1, and the second call reaches the corpus end
mid-batch and dies with `TypeError` at cursor 4 instead of wrapping. -/
theorem C3_wrap_reload_raises :
    generate_batch takeSample [0, 1, 2, 3] 0 2 2 1 = .ok ([1, 1], [0, 2], 1)
    ∧ generate_batch takeSample [0, 1, 2, 3] 1 2 2 1 = .error (.typeError, 4) :=
  ⟨rfl, rfl⟩

/-- C1 counterexample: a fully valid configuration (`batch_size = 2`
divisible by `num_skips = 2`, `num_skips = 2 ≤ 2 * skip_window = 2`, corpus
length `4 ≥ span = 3`) on which `generate_batch` does not return two
sequences of length `batch_size` at all: it raises `TypeError` in the
corpus-end wrap branch. -/
theorem C1_cex_wrap_error :
    (2 % 2 = 0 ∧ 2 ≤ 2 * 1 ∧ 2 * 1 + 1 ≤ List.length [0, 1, 2, 3])
    ∧ generate_batch takeSample [0, 1, 2, 3] 1 2 2 1 = .error (.typeError, 4) :=
  ⟨⟨rfl, by decide, by decide⟩, rfl⟩

/-- C4 counterexample: with corpus `[0,…,9]` (`N = 10`), `batch_size = 2`,
`num_skips = 2`, `skip_window = 1` (`span = 3`), the cursor after the last
group of the loop is 4 (witnessed by `sgLoop`), and the call returns final
cursor 1 — a rewind by `span = 3`, whereas a rewind by `span - 1 = 2`
positions as claimed would give `(4 + 10 - 2) % 10 = 2 ≠ 1`. -/
theorem C4_cex_rewind_is_span :
    sgLoop takeSample [0, 1, 2, 3, 4, 5, 6, 7, 8, 9] 3 1 2 0 1 [0, 1, 2] 3 [] []
      = .ok ([1, 1], [0, 2], [1, 2, 3], 4)
    ∧ generate_batch takeSample [0, 1, 2, 3, 4, 5, 6, 7, 8, 9] 0 2 2 1 =
        .ok ([1, 1], [0, 2], 1)
    ∧ (4 + 10 - (3 - 1)) % 10 ≠ 1 :=
  ⟨rfl, rfl, by decide⟩

/-- C5 counterexample: a corpus shorter than `span` (`[7]`, length 1 < 3)
does not fail fast with a configuration error before any state mutation:
the call dies with `IndexError` in the middle of the batch loop, with the
global cursor already moved from 0 to 3. -/
theorem C5_cex_short_corpus_mutates :
    generate_batch takeSample [7] 0 2 2 1 = .error (.indexError, 3)
    ∧ (3 : ℕ) ≠ 0 :=
  ⟨rfl, by decide⟩

/-- C5 (amended): the two `assert` preconditions (divisibility of
`batch_size` by `num_skips`, and `num_skips ≤ 2 * skip_window`) do fail
synchronously with `AssertionError` before any state mutation (the reported
cursor equals the incoming `d0`) and are never clamped; but a corpus shorter
than `span` is not checked up front — such a call raises `IndexError`
mid-batch after the cursor has already been mutated. -/
theorem C5_assert_behavior :
    (∀ (rand : SampleFn) (data : List ℕ) (d0 bs ns sw : ℕ),
      ns ≠ 0 → bs % ns ≠ 0 →
        generate_batch rand data d0 bs ns sw = .error (.assertionError, d0))
    ∧ (∀ (rand : SampleFn) (data : List ℕ) (d0 bs ns sw : ℕ),
        ns ≠ 0 → bs % ns = 0 → ¬ ns ≤ 2 * sw →
          generate_batch rand data d0 bs ns sw = .error (.assertionError, d0))
    ∧ (generate_batch takeSample [7] 0 2 2 1 = .error (.indexError, 3)
        ∧ (3 : ℕ) ≠ 0) := by
  refine ⟨?_, ?_, rfl, by decide⟩
  · intro rand data d0 bs ns sw hns hdiv
    simp [generate_batch, hns, hdiv]
  · intro rand data d0 bs ns sw hns hdiv hle
    simp [generate_batch, hns, hdiv, hle]

/-- Witness for C5 (amended): `batch_size = 7` not divisible by
`num_skips = 2` fails with `AssertionError` and an unchanged cursor. -/
theorem C5_assert_behavior_witness :
    generate_batch takeSample [1, 2, 3] 5 7 2 1 = .error (.assertionError, 5) :=
  C5_assert_behavior.1 takeSample [1, 2, 3] 5 7 2 1 (by decide) (by decide)

/-- C6 counterexample: on the token sequence `["UNK", "a"]` with `V = 3` the
literal token `"UNK"` enters the top `V - 1` words, the duplicate
`dictionary['UNK'] = len(dictionary)` assignment collides the ranks, and the
vocabulary round-trip fails: `"UNK"` is stored in the dictionary with rank
1, yet `reverse_dictionary[1] = "a" ≠ "UNK"`, and no rank maps back to 0. -/
theorem C6_cex_unk_token_breaks_roundtrip :
    "UNK" ∈ alKeys (buildDataset ["UNK", "a"] 3).2.2.1
    ∧ alGet? (buildDataset ["UNK", "a"] 3).2.2.1 "UNK" = some 1
    ∧ alGet? (buildDataset ["UNK", "a"] 3).2.2.2 1 = some "a"
    ∧ "a" ≠ "UNK"
    ∧ alGet? (buildDataset ["UNK", "a"] 3).2.2.2 0 = none :=
  ⟨by decide, by decide, by decide, by decide, by decide⟩

/-- C8: `build_dataset` is a pure deterministic transform; on the empty
token sequence it returns the empty encoded corpus and a vocabulary
containing only the out-of-vocabulary sentinel `"UNK"` (with count 0), for
every requested vocabulary size. -/
theorem C8_buildDataset_empty_and_pure :
    (∀ n : ℕ, buildDataset [] n = ([], [("UNK", 0)], [("UNK", 0)], [(0, "UNK")]))
    ∧ ∀ (ws : List String) (n : ℕ), buildDataset ws n = buildDataset ws n := by
  refine ⟨fun n => ?_, fun ws n => rfl⟩
  simp [buildDataset, mostCommon, pyCounter, sortDesc, encodeWords, buildDict,
    alInsert, buildRev]

/-- C9: with the randomness source injected explicitly, `generate_batch` is
a pure function of the source, the corpus, the cursor and the parameters:
two calls from identical state with identical parameters produce identical
`(batch, labels)` outputs and identical successor cursors. -/
theorem C9_deterministic (rand rand2 : SampleFn) (data data2 : List ℕ)
    (d0 d02 bs ns sw : ℕ) (hr : rand = rand2) (hd : data = data2)
    (hi : d0 = d02) :
    generate_batch rand data d0 bs ns sw =
      generate_batch rand2 data2 d02 bs ns sw := by
  subst hr; subst hd; subst hi; rfl

/-- Witness for C9 at a concrete state and parameters. -/
theorem C9_deterministic_witness :
    generate_batch takeSample [3, 1, 4, 1, 5] 0 2 2 1 =
      generate_batch takeSample [3, 1, 4, 1, 5] 0 2 2 1 :=
  C9_deterministic takeSample takeSample [3, 1, 4, 1, 5] [3, 1, 4, 1, 5]
    0 0 2 2 1 rfl rfl rfl

theorem ctxPositions_nodup (span sw : ℕ) : (ctxPositions span sw).Nodup :=
  (List.nodup_range span).filter _

theorem mem_ctxPositions {span sw p : ℕ} (h : p ∈ ctxPositions span sw) :
    p < span ∧ p ≠ sw := by
  rcases List.mem_filter.1 h with ⟨hr, hp⟩
  exact ⟨List.mem_range.1 hr, by simpa using hp⟩

theorem ctxPositions_length (sw : ℕ) :
    (ctxPositions (2 * sw + 1) sw).length = 2 * sw := by
  have hcount := List.length_eq_countP_add_countP
    (fun w => decide (w ≠ sw)) (List.range (2 * sw + 1))
  have h1 : List.countP (fun w => decide (w ≠ sw)) (List.range (2 * sw + 1)) =
      (ctxPositions (2 * sw + 1) sw).length :=
    List.countP_eq_length_filter _ _
  have h2 : List.countP (fun w => decide (¬ (decide (w ≠ sw)) = true))
      (List.range (2 * sw + 1)) = List.count sw (List.range (2 * sw + 1)) := by
    rw [List.count]
    apply List.countP_congr
    intro x _
    by_cases hx : x = sw
    · subst hx; simp
    · simp [hx]
  have h3 : List.count sw (List.range (2 * sw + 1)) = 1 :=
    List.count_eq_one_of_mem (List.nodup_range _)
      (List.mem_range.2 (by omega))
  rw [h1, h2, h3, List.length_range] at hcount
  omega

theorem windowAt_length {data : List ℕ} {span s : ℕ}
    (h : s + span ≤ data.length) : (windowAt data span s).length = span := by
  simp only [windowAt, List.length_take, List.length_drop]
  omega

theorem windowAt_get? {data : List ℕ} {span s p : ℕ} (hp : p < span) :
    (windowAt data span s).get? p = data.get? (s + p) := by
  rw [windowAt, List.get?_take hp, List.get?_drop]

theorem windowAt_getD_mem {data : List ℕ} {span s p : ℕ}
    (hp : p < (windowAt data span s).length) :
    (windowAt data span s).getD p 0 ∈ data := by
  have hsub : (windowAt data span s).Sublist data :=
    (List.take_sublist _ _).trans (List.drop_sublist _ _)
  rw [List.getD_eq_get?, List.get?_eq_get hp]
  exact List.Sublist.mem (List.get_mem _ _ _) hsub

theorem pushBuf_length {span : ℕ} {buf : List ℕ} (x : ℕ)
    (h : buf.length = span) : (pushBuf span buf x).length = span := by
  simp [pushBuf, List.length_drop, h]

theorem pushBuf_windowAt {data : List ℕ} {span s : ℕ} {x : ℕ}
    (hspan : 0 < span) (hN : s + span < data.length)
    (hx : data.get? (s + span) = some x) :
    pushBuf span (windowAt data span s) x = windowAt data span (s + 1) := by
  have hlen : (windowAt data span s).length = span :=
    windowAt_length (le_of_lt hN)
  have hget : (List.drop (s + 1) data)[span - 1]? = some x := by
    rw [List.getElem?_drop data (s + 1) (span - 1),
      show (s + 1) + (span - 1) = s + span by omega, ← List.get?_eq_getElem?]
    exact hx
  have hrhs : windowAt data span (s + 1) =
      List.take (span - 1) (List.drop (s + 1) data) ++ [x] := by
    rw [windowAt]
    conv_lhs => rw [show span = (span - 1) + 1 by omega]
    rw [List.take_succ, hget]
    rfl
  simp only [pushBuf]
  have hlen2 : (windowAt data span s ++ [x]).length = span + 1 := by
    rw [List.length_append, hlen]; rfl
  rw [hlen2, show span + 1 - span = 1 by omega,
    List.drop_append_of_le_length (by omega : 1 ≤ (windowAt data span s).length)]
  rw [windowAt, List.drop_take, List.drop_drop, hrhs]

theorem emitGroup_ok (buf : List ℕ) (sw : ℕ) :
    ∀ (chosen accB accL : List ℕ),
      sw < buf.length → (∀ cw ∈ chosen, cw < buf.length) →
      emitGroup buf sw chosen accB accL =
        .ok (accB ++ chosen.map (fun _ => int32 (buf.getD sw 0)),
             accL ++ chosen.map (fun cw => int32 (buf.getD cw 0)))
  | [], accB, accL, _, _ => by simp [emitGroup]
  | cw :: rest, accB, accL, hsw, hmem => by
    have hcw : cw < buf.length := hmem cw (List.mem_cons_self _ _)
    have hc : buf.get? sw = some (buf.getD sw 0) := by
      rw [List.getD_eq_get?, List.get?_eq_get hsw]; rfl
    have hy : buf.get? cw = some (buf.getD cw 0) := by
      rw [List.getD_eq_get?, List.get?_eq_get hcw]; rfl
    rw [emitGroup, hc, hy]
    show emitGroup buf sw rest (accB ++ [int32 (buf.getD sw 0)])
      (accL ++ [int32 (buf.getD cw 0)]) = _
    rw [emitGroup_ok buf sw rest _ _ hsw
      (fun z hz => hmem z (List.mem_cons_of_mem _ hz))]
    simp [List.append_assoc]

theorem sgLoop_ok_dEnd (rand : SampleFn) (data : List ℕ) (span sw ns : ℕ) :
    ∀ (g i : ℕ) (buf : List ℕ) (d : ℕ) (accB accL b l bufF : List ℕ) (dF : ℕ),
      sgLoop rand data span sw ns i g buf d accB accL = .ok (b, l, bufF, dF) →
      dF = d + g
  | 0, i, buf, d, accB, accL, b, l, bufF, dF => by
    intro h
    simp only [sgLoop, Except.ok.injEq, Prod.mk.injEq] at h
    obtain ⟨-, -, -, h4⟩ := h
    omega
  | g + 1, i, buf, d, accB, accL, b, l, bufF, dF => by
    intro h
    simp only [sgLoop] at h
    split at h
    · simp at h
    · split at h
      · simp at h
      · split at h
        · simp at h
        · split at h
          · simp at h
          · rename_i x hx
            have := sgLoop_ok_dEnd rand data span sw ns g (i + 1)
              (pushBuf span buf x) (d + 1) _ _ b l bufF dF h
            omega

/-- One successful iteration of the batch loop, written as a rewrite: the
group's pairs are appended and the window slides by one position. -/
theorem sgLoop_step (rand : SampleFn) (data : List ℕ) (sw ns i g : ℕ)
    (buf : List ℕ) (d : ℕ) (accB accL : List ℕ)
    (hctx : ¬ (ctxPositions (2 * sw + 1) sw).length < ns)
    (hsw : sw < buf.length)
    (hmem : ∀ cw ∈ rand i (ctxPositions (2 * sw + 1) sw) ns, cw < buf.length)
    (hd : d ≠ data.length) (x : ℕ) (hx : data.get? d = some x) :
    sgLoop rand data (2 * sw + 1) sw ns i (g + 1) buf d accB accL =
      sgLoop rand data (2 * sw + 1) sw ns (i + 1) g (pushBuf (2 * sw + 1) buf x)
        (d + 1)
        (accB ++ (rand i (ctxPositions (2 * sw + 1) sw) ns).map
          (fun _ => int32 (buf.getD sw 0)))
        (accL ++ (rand i (ctxPositions (2 * sw + 1) sw) ns).map
          (fun cw => int32 (buf.getD cw 0))) := by
  rw [sgLoop, if_neg hctx, emitGroup_ok buf sw _ accB accL hsw hmem]
  dsimp only
  rw [if_neg hd, hx]

/-- The sequence of `(batch, labels)` values produced by `g` consecutive
groups of the loop, starting at group index `i` with the window at corpus
position `s` (success case, no wraparound). -/
def groupsSpec (rand : SampleFn) (data : List ℕ) (span sw ns : ℕ) :
    ℕ → ℕ → ℕ → List ℕ × List ℕ
  | _, _, 0 => ([], [])
  | i, s, g + 1 =>
    let w := windowAt data span s
    let chosen := rand i (ctxPositions span sw) ns
    let rest := groupsSpec rand data span sw ns (i + 1) (s + 1) g
    (chosen.map (fun _ => int32 (w.getD sw 0)) ++ rest.1,
     chosen.map (fun cw => int32 (w.getD cw 0)) ++ rest.2)

/-- Success characterization of the batch loop: as long as the `g` windows
fit inside the corpus, the loop succeeds and appends exactly the
`groupsSpec` pairs, finishing with the window at position `s + g` and the
cursor advanced by `g`. -/
theorem sgLoop_windows (rand : SampleFn) (data : List ℕ) (sw ns : ℕ)
    (hr : SampleSpec rand) (hns : ns ≤ 2 * sw) :
    ∀ (g i s : ℕ) (accB accL : List ℕ),
      s + (2 * sw + 1) + g ≤ data.length →
      sgLoop rand data (2 * sw + 1) sw ns i g (windowAt data (2 * sw + 1) s)
          (s + (2 * sw + 1)) accB accL =
        .ok (accB ++ (groupsSpec rand data (2 * sw + 1) sw ns i s g).1,
             accL ++ (groupsSpec rand data (2 * sw + 1) sw ns i s g).2,
             windowAt data (2 * sw + 1) (s + g), s + (2 * sw + 1) + g)
  | 0, i, s, accB, accL => by
    intro hle
    simp [sgLoop, groupsSpec]
  | g + 1, i, s, accB, accL => by
    intro hle
    have hctxlen : (ctxPositions (2 * sw + 1) sw).length = 2 * sw :=
      ctxPositions_length sw
    obtain ⟨hclen, hcnodup, hcmem⟩ :=
      hr i (ctxPositions (2 * sw + 1) sw) ns (by omega) (ctxPositions_nodup _ _)
    have hwlen : (windowAt data (2 * sw + 1) s).length = 2 * sw + 1 :=
      windowAt_length (by omega)
    have hsw : sw < (windowAt data (2 * sw + 1) s).length := by omega
    have hmem : ∀ cw ∈ rand i (ctxPositions (2 * sw + 1) sw) ns,
        cw < (windowAt data (2 * sw + 1) s).length := by
      intro cw hcw
      rcases mem_ctxPositions (hcmem cw hcw) with ⟨h1, _⟩
      omega
    have hdN : s + (2 * sw + 1) < data.length := by omega
    obtain ⟨x, hx⟩ : ∃ x, data.get? (s + (2 * sw + 1)) = some x :=
      ⟨_, List.get?_eq_get hdN⟩
    rw [sgLoop_step rand data sw ns i g _ _ accB accL (by omega) hsw hmem
      (by omega) x hx]
    rw [pushBuf_windowAt (by omega) hdN hx]
    rw [show s + (2 * sw + 1) + 1 = (s + 1) + (2 * sw + 1) by omega]
    rw [sgLoop_windows rand data sw ns hr hns g (i + 1) (s + 1) _ _ (by omega)]
    rw [groupsSpec]
    simp only [List.append_assoc]
    rw [show s + 1 + g = s + (g + 1) by omega,
      show s + 1 + (2 * sw + 1) + g = s + (2 * sw + 1) + (g + 1) by omega]

/-- Failure characterization of the batch loop: if the remaining groups
would run past the corpus end, the loop reaches `data_index == len(data)`
and dies in the wrap branch with the `TypeError` of the deque slice
assignment, the cursor being left at the corpus length. -/
theorem sgLoop_wrap (rand : SampleFn) (data : List ℕ) (sw ns : ℕ)
    (hr : SampleSpec rand) (hns : ns ≤ 2 * sw) :
    ∀ (g i s : ℕ) (accB accL : List ℕ),
      s + (2 * sw + 1) ≤ data.length →
      data.length < s + (2 * sw + 1) + g →
      sgLoop rand data (2 * sw + 1) sw ns i g (windowAt data (2 * sw + 1) s)
          (s + (2 * sw + 1)) accB accL = .error (.typeError, data.length)
  | 0, i, s, accB, accL => by
    intro h1 h2
    omega
  | g + 1, i, s, accB, accL => by
    intro h1 h2
    have hctxlen : (ctxPositions (2 * sw + 1) sw).length = 2 * sw :=
      ctxPositions_length sw
    obtain ⟨hclen, hcnodup, hcmem⟩ :=
      hr i (ctxPositions (2 * sw + 1) sw) ns (by omega) (ctxPositions_nodup _ _)
    have hwlen : (windowAt data (2 * sw + 1) s).length = 2 * sw + 1 :=
      windowAt_length h1
    have hsw : sw < (windowAt data (2 * sw + 1) s).length := by omega
    have hmem : ∀ cw ∈ rand i (ctxPositions (2 * sw + 1) sw) ns,
        cw < (windowAt data (2 * sw + 1) s).length := by
      intro cw hcw
      rcases mem_ctxPositions (hcmem cw hcw) with ⟨h1, _⟩
      omega
    by_cases hend : s + (2 * sw + 1) = data.length
    · rw [sgLoop, if_neg (by omega),
        emitGroup_ok _ sw _ accB accL hsw hmem]
      dsimp only
      rw [if_pos hend, hend]
    · have hdN : s + (2 * sw + 1) < data.length := by omega
      obtain ⟨x, hx⟩ : ∃ x, data.get? (s + (2 * sw + 1)) = some x :=
        ⟨_, List.get?_eq_get hdN⟩
      rw [sgLoop_step rand data sw ns i g _ _ accB accL (by omega) hsw hmem
        hend x hx]
      rw [pushBuf_windowAt (by omega) hdN hx]
      rw [show s + (2 * sw + 1) + 1 = (s + 1) + (2 * sw + 1) by omega]
      exact sgLoop_wrap rand data sw ns hr hns g (i + 1) (s + 1) _ _
        (by omega) (by omega)

theorem takeSample_spec : SampleSpec takeSample := by
  intro i pop k hk hnod
  refine ⟨?_, ?_, ?_⟩
  · show (pop.take k).length = k
    rw [List.length_take]
    exact min_eq_left hk
  · exact (List.take_sublist _ _).nodup hnod
  · intro x hx
    exact List.Sublist.mem hx (List.take_sublist _ _)

theorem groupsSpec_length (rand : SampleFn) (data : List ℕ) (sw ns : ℕ)
    (hr : SampleSpec rand) (hns : ns ≤ 2 * sw) :
    ∀ (g i s : ℕ),
      (groupsSpec rand data (2 * sw + 1) sw ns i s g).1.length = g * ns ∧
      (groupsSpec rand data (2 * sw + 1) sw ns i s g).2.length = g * ns
  | 0, i, s => by simp [groupsSpec]
  | g + 1, i, s => by
    obtain ⟨hclen, -, -⟩ := hr i (ctxPositions (2 * sw + 1) sw) ns
      (by rw [ctxPositions_length]; exact hns) (ctxPositions_nodup _ _)
    obtain ⟨ih1, ih2⟩ := groupsSpec_length rand data sw ns hr hns g (i + 1) (s + 1)
    constructor
    · rw [groupsSpec]
      simp only [List.length_append, List.length_map, hclen, ih1]
      ring
    · rw [groupsSpec]
      simp only [List.length_append, List.length_map, hclen, ih2]
      ring

/-- Inversion of a successful `generate_batch` call (corpus at least `span`
long): the asserts passed, no wraparound was hit, the outputs are exactly
the `groupsSpec` pairs for the post-reset start position, and the final
cursor is the loop-end cursor rewound by `span` modulo the corpus length. -/
theorem generate_batch_ok_char (rand : SampleFn) (data : List ℕ)
    (d0 bs ns sw : ℕ) (b l : List ℕ) (d' : ℕ)
    (hr : SampleSpec rand) (hN : 2 * sw + 1 ≤ data.length)
    (hok : generate_batch rand data d0 bs ns sw = .ok (b, l, d')) :
    ns ≠ 0 ∧ bs % ns = 0 ∧ ns ≤ 2 * sw ∧
    (if data.length < d0 + (2 * sw + 1) then 0 else d0) + (2 * sw + 1) +
        bs / ns ≤ data.length ∧
    b = (groupsSpec rand data (2 * sw + 1) sw ns 0
      (if data.length < d0 + (2 * sw + 1) then 0 else d0) (bs / ns)).1 ∧
    l = (groupsSpec rand data (2 * sw + 1) sw ns 0
      (if data.length < d0 + (2 * sw + 1) then 0 else d0) (bs / ns)).2 ∧
    d' = ((if data.length < d0 + (2 * sw + 1) then 0 else d0) + (2 * sw + 1) +
      bs / ns + data.length - (2 * sw + 1)) % data.length := by
  simp only [generate_batch] at hok
  split at hok
  · simp at hok
  · split at hok
    · simp at hok
    · split at hok
      · simp at hok
      · rename_i h0 hdiv hle
        set D : ℕ := if data.length < d0 + (2 * sw + 1) then 0 else d0 with hD
        have hDle : D + (2 * sw + 1) ≤ data.length := by
          rw [hD]
          split <;> omega
        have hle' : ns ≤ 2 * sw := by omega
        by_cases hfit : D + (2 * sw + 1) + bs / ns ≤ data.length
        · rw [sgLoop_windows rand data sw ns hr hle' (bs / ns) 0 D [] []
            hfit] at hok
          dsimp only at hok
          rw [if_neg (show ¬ data.length = 0 by omega)] at hok
          simp only [List.nil_append, Except.ok.injEq, Prod.mk.injEq] at hok
          obtain ⟨hb, hl, hd⟩ := hok
          exact ⟨h0, by omega, hle', hfit, hb.symm, hl.symm, hd.symm⟩
        · rw [sgLoop_wrap rand data sw ns hr hle' (bs / ns) 0 D [] []
            hDle (by omega)] at hok
          simp at hok

/-- C1 (amended): for every valid parameter triple and corpus of length at
least `span`, every `generate_batch` call that completes without raising
(the corpus-end wrap raises `TypeError`, see the counterexample) returns
`batch` and `labels` of exactly length `batch_size`. -/
theorem C1_batch_label_lengths (rand : SampleFn) (data : List ℕ)
    (d0 bs ns sw : ℕ) (b l : List ℕ) (d' : ℕ)
    (hr : SampleSpec rand) (hN : 2 * sw + 1 ≤ data.length)
    (hok : generate_batch rand data d0 bs ns sw = .ok (b, l, d')) :
    b.length = bs ∧ l.length = bs := by
  obtain ⟨h0, hdiv, hle, hfit, hb, hl, -⟩ :=
    generate_batch_ok_char rand data d0 bs ns sw b l d' hr hN hok
  obtain ⟨L1, L2⟩ := groupsSpec_length rand data sw ns hr hle (bs / ns) 0
    (if data.length < d0 + (2 * sw + 1) then 0 else d0)
  rw [hb, hl, L1, L2, Nat.div_mul_cancel (Nat.dvd_of_mod_eq_zero hdiv)]
  exact ⟨rfl, rfl⟩

/-- Witness for C1 (amended) at a concrete successful call. -/
theorem C1_batch_label_lengths_witness :
    List.length [20, 20, 30, 30] = 4 ∧ List.length [10, 30, 20, 40] = 4 :=
  C1_batch_label_lengths takeSample [10, 20, 30, 40, 50] 0 4 2 1
    [20, 20, 30, 30] [10, 30, 20, 40] 2 takeSample_spec (by decide) rfl

/-- C4 (amended): at the end of every successful call the cursor is rewound
by exactly `span` positions modulo the corpus length relative to its value
after the last loop iteration (`data_index = (data_index + len(data) -
span) % len(data)`), not by `span - 1`; the loop-end cursor itself is the
post-reset start plus `span` plus the number of groups, so successive calls
advance the window start by exactly `batch_size / num_skips` positions and
no center position is skipped at a batch boundary. -/
theorem C4_rewind_by_span (rand : SampleFn) (data : List ℕ)
    (d0 bs ns sw : ℕ) (b l bufF : List ℕ) (dEnd : ℕ)
    (h0 : ns ≠ 0) (hdiv : bs % ns = 0) (hle : ns ≤ 2 * sw)
    (hN : 0 < data.length)
    (hloop : sgLoop rand data (2 * sw + 1) sw ns 0 (bs / ns)
      (windowAt data (2 * sw + 1)
        (if data.length < d0 + (2 * sw + 1) then 0 else d0))
      ((if data.length < d0 + (2 * sw + 1) then 0 else d0) + (2 * sw + 1))
      [] [] = .ok (b, l, bufF, dEnd)) :
    generate_batch rand data d0 bs ns sw =
      .ok (b, l, (dEnd + data.length - (2 * sw + 1)) % data.length)
    ∧ dEnd = (if data.length < d0 + (2 * sw + 1) then 0 else d0) +
        (2 * sw + 1) + bs / ns := by
  constructor
  · rw [generate_batch, if_neg h0,
      if_neg (show ¬ bs % ns ≠ 0 from not_not_intro hdiv),
      if_neg (not_not_intro hle)]
    dsimp only
    rw [hloop]
    dsimp only
    rw [if_neg (show ¬ data.length = 0 by omega)]
  · have := sgLoop_ok_dEnd rand data (2 * sw + 1) sw ns (bs / ns) 0 _ _ _ _
      b l bufF dEnd hloop
    omega

/-- Witness for C4 (amended) at a concrete call: corpus `[0,…,9]`,
`batch_size = 2`, `num_skips = 2`, `skip_window = 1`; the loop ends at
cursor 4 and the call returns cursor `(4 + 10 - 3) % 10 = 1`. -/
theorem C4_rewind_by_span_witness :
    generate_batch takeSample [0, 1, 2, 3, 4, 5, 6, 7, 8, 9] 0 2 2 1 =
      .ok ([1, 1], [0, 2], 1) ∧ (4 : ℕ) = 4 :=
  C4_rewind_by_span takeSample [0, 1, 2, 3, 4, 5, 6, 7, 8, 9] 0 2 2 1
    [1, 1] [0, 2] [1, 2, 3] 4 (by decide) (by decide) (by decide)
    (by decide) rfl

theorem groupsSpec_get (rand : SampleFn) (data : List ℕ) (sw ns : ℕ)
    (hr : SampleSpec rand) (hns : ns ≤ 2 * sw) :
    ∀ (g k i s j : ℕ), k < g → j < ns →
      ((groupsSpec rand data (2 * sw + 1) sw ns i s g).1.get? (k * ns + j) =
        some (int32 ((windowAt data (2 * sw + 1) (s + k)).getD sw 0))) ∧
      ∀ p, (rand (i + k) (ctxPositions (2 * sw + 1) sw) ns).get? j = some p →
        (groupsSpec rand data (2 * sw + 1) sw ns i s g).2.get? (k * ns + j) =
          some (int32 ((windowAt data (2 * sw + 1) (s + k)).getD p 0))
  | 0, k, i, s, j => fun hk _ => absurd hk (Nat.not_lt_zero k)
  | g + 1, 0, i, s, j => by
    intro hk hj
    obtain ⟨hclen, -, -⟩ := hr i (ctxPositions (2 * sw + 1) sw) ns
      (by rw [ctxPositions_length]; exact hns) (ctxPositions_nodup _ _)
    have hjlen : j < (rand i (ctxPositions (2 * sw + 1) sw) ns).length := by
      omega
    obtain ⟨p0, hp0⟩ : ∃ p0,
        (rand i (ctxPositions (2 * sw + 1) sw) ns).get? j = some p0 :=
      ⟨_, List.get?_eq_get hjlen⟩
    rw [groupsSpec]
    dsimp only
    constructor
    · rw [List.get?_append (by simp only [List.length_map]; omega)]
      rw [Nat.zero_mul, Nat.zero_add, List.get?_map, hp0, Nat.add_zero]
      rfl
    · intro p hp
      rw [Nat.add_zero] at hp
      rw [List.get?_append (by simp only [List.length_map]; omega)]
      rw [Nat.zero_mul, Nat.zero_add, List.get?_map, hp, Nat.add_zero]
      rfl
  | g + 1, k + 1, i, s, j => by
    intro hk hj
    obtain ⟨hclen, -, -⟩ := hr i (ctxPositions (2 * sw + 1) sw) ns
      (by rw [ctxPositions_length]; exact hns) (ctxPositions_nodup _ _)
    obtain ⟨ih1, ih2⟩ := groupsSpec_get rand data sw ns hr hns g k (i + 1)
      (s + 1) j (by omega) hj
    have hidx : (k + 1) * ns + j = ns + (k * ns + j) := by ring
    have harith1 : s + 1 + k = s + (k + 1) := by omega
    have harith2 : i + 1 + k = i + (k + 1) := by omega
    rw [groupsSpec]
    dsimp only
    rw [harith1] at ih1 ih2
    rw [harith2] at ih2
    constructor
    · rw [hidx, List.get?_append_right (by simp only [List.length_map]; omega)]
      simp only [List.length_map, hclen]
      rw [show ns + (k * ns + j) - ns = k * ns + j by omega]
      exact ih1
    · intro p hp
      rw [hidx, List.get?_append_right (by simp only [List.length_map]; omega)]
      simp only [List.length_map, hclen]
      rw [show ns + (k * ns + j) - ns = k * ns + j by omega]
      exact ih2 p hp

/-- C2: in every batch returned by `generate_batch` (corpus at least `span`
long, token values below `2^31` so `np.int32` storage is exact), the
`num_skips` pairs of group `k` all carry the same center value, namely the
middle element (buffer position `skip_window`) of that group's window; the
chosen context positions are `num_skips` pairwise-distinct positions drawn
from the `span - 1` window positions other than the middle one (none equal
to `skip_window`); and each context value is the window value at the chosen
position. -/
theorem C2_group_structure (rand : SampleFn) (data : List ℕ)
    (d0 bs ns sw : ℕ) (b l : List ℕ) (d' : ℕ)
    (hr : SampleSpec rand) (hvals : ∀ x ∈ data, x < 2 ^ 31)
    (hN : 2 * sw + 1 ≤ data.length)
    (hok : generate_batch rand data d0 bs ns sw = .ok (b, l, d')) :
    ∀ k, k < bs / ns →
      (rand k (ctxPositions (2 * sw + 1) sw) ns).length = ns ∧
      (rand k (ctxPositions (2 * sw + 1) sw) ns).Nodup ∧
      (∀ p ∈ rand k (ctxPositions (2 * sw + 1) sw) ns,
        p < 2 * sw + 1 ∧ p ≠ sw) ∧
      (∀ j, j < ns → b.get? (k * ns + j) =
        some ((windowAt data (2 * sw + 1)
          ((if data.length < d0 + (2 * sw + 1) then 0 else d0) + k)).getD
            sw 0)) ∧
      (∀ j p, (rand k (ctxPositions (2 * sw + 1) sw) ns).get? j = some p →
        l.get? (k * ns + j) =
          some ((windowAt data (2 * sw + 1)
            ((if data.length < d0 + (2 * sw + 1) then 0 else d0) + k)).getD
              p 0)) := by
  obtain ⟨h0, hdiv, hle, hfit, hb, hl, -⟩ :=
    generate_batch_ok_char rand data d0 bs ns sw b l d' hr hN hok
  intro k hk
  set D : ℕ := if data.length < d0 + (2 * sw + 1) then 0 else d0 with hD
  obtain ⟨hclen, hcnodup, hcmem⟩ := hr k (ctxPositions (2 * sw + 1) sw) ns
    (by rw [ctxPositions_length]; exact hle) (ctxPositions_nodup _ _)
  have hwlen : (windowAt data (2 * sw + 1) (D + k)).length = 2 * sw + 1 :=
    windowAt_length (by omega)
  have hsmall : ∀ q, q < (windowAt data (2 * sw + 1) (D + k)).length →
      int32 ((windowAt data (2 * sw + 1) (D + k)).getD q 0) =
        (windowAt data (2 * sw + 1) (D + k)).getD q 0 := by
    intro q hq
    have hm := windowAt_getD_mem hq
    have hv := hvals _ hm
    exact Nat.mod_eq_of_lt (by omega)
  refine ⟨hclen, hcnodup, fun p hp => mem_ctxPositions (hcmem p hp), ?_, ?_⟩
  · intro j hj
    obtain ⟨g1, -⟩ := groupsSpec_get rand data sw ns hr hle (bs / ns) k 0 D j
      hk hj
    rw [hb, g1, hsmall sw (by omega)]
  · intro j p hp
    obtain ⟨-, g2⟩ := groupsSpec_get rand data sw ns hr hle (bs / ns) k 0 D j
      hk (by
        obtain ⟨hlt, -⟩ := List.get?_eq_some.1 hp
        omega)
    rw [Nat.zero_add] at g2
    have hpmem : p ∈ rand k (ctxPositions (2 * sw + 1) sw) ns :=
      List.get?_mem hp
    obtain ⟨hplt, -⟩ := mem_ctxPositions (hcmem p hpmem)
    rw [hl, g2 p hp, hsmall p (by omega)]

/-- Witness for C2 at a concrete call: corpus `[10,20,30,40,50]`,
`batch_size = 4`, `num_skips = 2`, `skip_window = 1`, group `k = 1`,
pair `j = 0`: the batch entry at position `1 * 2 + 0 = 2` is the middle
value 30 of the second window `[20, 30, 40]`. -/
theorem C2_group_structure_witness :
    List.get? [20, 20, 30, 30] 2 = some 30 :=
  ((C2_group_structure takeSample [10, 20, 30, 40, 50] 0 4 2 1
    [20, 20, 30, 30] [10, 30, 20, 40] 2 takeSample_spec (by decide)
    (by decide) rfl 1 (by decide)).2.2.2.1) 0 (by decide)

/-- With valid parameters and a full window, the batch loop never raises
`IndexError` (all window and corpus accesses are in bounds): any error it
raises is the wrap-branch `TypeError`. -/
theorem sgLoop_err_typeError (rand : SampleFn) (data : List ℕ) (sw ns : ℕ)
    (hr : SampleSpec rand) (hns : ns ≤ 2 * sw) :
    ∀ (g i : ℕ) (buf : List ℕ) (d : ℕ) (accB accL : List ℕ)
      (e : PyErr) (d'' : ℕ),
      buf.length = 2 * sw + 1 → d ≤ data.length →
      sgLoop rand data (2 * sw + 1) sw ns i g buf d accB accL =
        .error (e, d'') →
      e = .typeError
  | 0, i, buf, d, accB, accL, e, d'' => by
    intro hbuf hd h
    simp [sgLoop] at h
  | g + 1, i, buf, d, accB, accL, e, d'' => by
    intro hbuf hd h
    obtain ⟨hclen, hcnodup, hcmem⟩ := hr i (ctxPositions (2 * sw + 1) sw) ns
      (by rw [ctxPositions_length]; exact hns) (ctxPositions_nodup _ _)
    have hsw : sw < buf.length := by omega
    have hmem : ∀ cw ∈ rand i (ctxPositions (2 * sw + 1) sw) ns,
        cw < buf.length := by
      intro cw hcw
      obtain ⟨h1, -⟩ := mem_ctxPositions (hcmem cw hcw)
      omega
    rw [sgLoop, if_neg (by rw [ctxPositions_length]; omega),
      emitGroup_ok buf sw _ accB accL hsw hmem] at h
    dsimp only at h
    by_cases hend : d = data.length
    · rw [if_pos hend] at h
      simp only [Except.error.injEq, Prod.mk.injEq] at h
      exact h.1.symm
    · rw [if_neg hend] at h
      have hdN : d < data.length := by omega
      obtain ⟨x, hx⟩ : ∃ x, data.get? d = some x := ⟨_, List.get?_eq_get hdN⟩
      rw [hx] at h
      dsimp only at h
      exact sgLoop_err_typeError rand data sw ns hr hns g (i + 1)
        (pushBuf (2 * sw + 1) buf x) (d + 1) _ _ e d''
        (pushBuf_length x hbuf) (by omega) h

/-- Any successful call leaves the cursor strictly below the corpus length
(the returned cursor is reduced modulo the corpus length). -/
theorem generate_batch_ok_mod (rand : SampleFn) (data : List ℕ)
    (d0 bs ns sw : ℕ) (b l : List ℕ) (d' : ℕ) (hpos : 0 < data.length)
    (hok : generate_batch rand data d0 bs ns sw = .ok (b, l, d')) :
    d' < data.length := by
  simp only [generate_batch] at hok
  split at hok
  · simp at hok
  · split at hok
    · simp at hok
    · split at hok
      · simp at hok
      · split at hok
        · simp at hok
        · split at hok
          · simp at hok
          · simp only [Except.ok.injEq, Prod.mk.injEq] at hok
            obtain ⟨-, -, h3⟩ := hok
            rw [← h3]
            exact Nat.mod_lt _ hpos

/-- C10: for every corpus of length at least `span` and valid parameters,
`generate_batch` reads the corpus only at indices inside `[0, N)` (in the
model an out-of-bounds access is an `IndexError`, and no call — from any
starting cursor — dies with one), every successful call ends with the
global cursor inside `[0, N)`, and the invariant is preserved across
arbitrarily many successive calls. -/
theorem C10_cursor_invariant (rand : SampleFn) (data : List ℕ)
    (bs ns sw : ℕ) (hr : SampleSpec rand) (hns : ns ≤ 2 * sw)
    (hN : 2 * sw + 1 ≤ data.length) :
    (∀ d0 b l d', generate_batch rand data d0 bs ns sw = .ok (b, l, d') →
      d' < data.length)
    ∧ (∀ d0 d'',
        generate_batch rand data d0 bs ns sw ≠ .error (.indexError, d''))
    ∧ (∀ (rands : List SampleFn) (d0 dF : ℕ), d0 < data.length →
        iterCalls data bs ns sw rands d0 = .ok dF → dF < data.length) := by
  refine ⟨fun d0 b l d' hok =>
    generate_batch_ok_mod rand data d0 bs ns sw b l d' (by omega) hok,
    ?_, ?_⟩
  · intro d0 d'' h
    by_cases h0 : ns = 0
    · rw [generate_batch, if_pos h0] at h
      simp at h
    · by_cases hdiv : bs % ns ≠ 0
      · rw [generate_batch, if_neg h0, if_pos hdiv] at h
        simp at h
      · rw [generate_batch, if_neg h0, if_neg hdiv,
          if_neg (not_not_intro hns)] at h
        dsimp only at h
        set D : ℕ := if data.length < d0 + (2 * sw + 1) then 0 else d0
          with hD
        have hDle : D + (2 * sw + 1) ≤ data.length := by
          rw [hD]; split <;> omega
        cases hsg : sgLoop rand data (2 * sw + 1) sw ns 0 (bs / ns)
            (windowAt data (2 * sw + 1) D) (D + (2 * sw + 1)) [] [] with
        | error e =>
          rw [hsg] at h
          obtain ⟨pe, pd⟩ := e
          have hpe : pe = .typeError :=
            sgLoop_err_typeError rand data sw ns hr hns (bs / ns) 0
              (windowAt data (2 * sw + 1) D) (D + (2 * sw + 1)) [] [] pe pd
              (windowAt_length hDle) hDle hsg
          simp only [Except.error.injEq, Prod.mk.injEq] at h
          rw [h.1] at hpe
          simp at hpe
        | ok trip =>
          obtain ⟨b, l, bufF, dEnd⟩ := trip
          rw [hsg] at h
          dsimp only at h
          rw [if_neg (show ¬ data.length = 0 by omega)] at h
          simp at h
  · intro rands
    induction rands with
    | nil =>
      intro d0 dF hd0 h
      simp only [iterCalls, Except.ok.injEq] at h
      omega
    | cons r rest ih =>
      intro d0 dF hd0 h
      rw [iterCalls] at h
      cases hgb : generate_batch r data d0 bs ns sw with
      | error e =>
        rw [hgb] at h
        simp at h
      | ok trip =>
        obtain ⟨b, l, d1⟩ := trip
        rw [hgb] at h
        dsimp only at h
        exact ih d1 dF
          (generate_batch_ok_mod r data d0 bs ns sw b l d1 (by omega) hgb) h

/-- Witness for C10: a concrete successful call from cursor 0 on corpus
`[10,20,30,40,50]` returns cursor 1, inside `[0, 5)`. -/
theorem C10_cursor_invariant_witness :
    generate_batch takeSample [10, 20, 30, 40, 50] 0 2 2 1 =
      .ok ([20, 20], [10, 30], 1) ∧ (1 : ℕ) < 5 :=
  ⟨rfl, (C10_cursor_invariant takeSample [10, 20, 30, 40, 50] 2 2 1
    takeSample_spec (by decide) (by decide)).1 0 [20, 20] [10, 30] 1 rfl⟩

theorem alGet?_cons_eq {α β : Type} [DecidableEq α] (k : α) (v : β)
    (d : List (α × β)) (w : α) (h : k = w) :
    alGet? ((k, v) :: d) w = some v := by
  simp [alGet?, List.find?, h]

theorem alGet?_cons_ne {α β : Type} [DecidableEq α] (k : α) (v : β)
    (d : List (α × β)) (w : α) (h : k ≠ w) :
    alGet? ((k, v) :: d) w = alGet? d w := by
  simp [alGet?, List.find?, h]

theorem alGet?_alInsert {α β : Type} [DecidableEq α] :
    ∀ (d : List (α × β)) (k : α) (v : β) (w : α),
      alGet? (alInsert d k v) w = if w = k then some v else alGet? d w
  | [], k, v, w => by
    by_cases h : w = k
    · rw [if_pos h, alInsert, alGet?_cons_eq _ _ _ _ h.symm]
    · rw [if_neg h, alInsert, alGet?_cons_ne _ _ _ _ (fun hh => h hh.symm)]
  | (a, b) :: rest, k, v, w => by
    rw [alInsert]
    by_cases hp : a = k
    · rw [if_pos hp]
      by_cases h : w = k
      · rw [if_pos h, alGet?_cons_eq _ _ _ _ h.symm]
      · rw [if_neg h, alGet?_cons_ne _ _ _ _ (fun hh => h hh.symm),
          alGet?_cons_ne a b rest w (fun hh => h (hh.symm.trans hp))]
    · rw [if_neg hp]
      by_cases h : w = a
      · rw [alGet?_cons_eq a b (alInsert rest k v) w h.symm,
          if_neg (fun hk : w = k => hp (h.symm.trans hk)),
          alGet?_cons_eq a b rest w h.symm]
      · rw [alGet?_cons_ne a b (alInsert rest k v) w (fun hh => h hh.symm),
          alGet?_alInsert rest k v w,
          alGet?_cons_ne a b rest w (fun hh => h hh.symm)]

theorem alKeys_cons {α β : Type} (a : α) (b : β) (d : List (α × β)) :
    alKeys ((a, b) :: d) = a :: alKeys d := rfl

theorem mem_alKeys_alInsert {α β : Type} [DecidableEq α] :
    ∀ (d : List (α × β)) (k : α) (v : β) (w : α),
      w ∈ alKeys (alInsert d k v) ↔ w = k ∨ w ∈ alKeys d
  | [], k, v, w => by simp [alInsert, alKeys]
  | (a, b) :: rest, k, v, w => by
    rw [alInsert]
    by_cases hp : a = k
    · rw [if_pos hp, alKeys_cons, alKeys_cons]
      subst hp
      simp [List.mem_cons]
    · rw [if_neg hp, alKeys_cons, alKeys_cons]
      simp only [List.mem_cons, mem_alKeys_alInsert rest k v w]
      tauto

theorem length_alInsert_ge {α β : Type} [DecidableEq α] :
    ∀ (d : List (α × β)) (k : α) (v : β), d.length ≤ (alInsert d k v).length
  | [], k, v => by simp [alInsert]
  | (a, b) :: rest, k, v => by
    rw [alInsert]
    by_cases hp : a = k
    · rw [if_pos hp]
      simp
    · rw [if_neg hp]
      have := length_alInsert_ge rest k v
      simp only [List.length_cons]
      omega

theorem alInsert_fresh {α β : Type} [DecidableEq α] :
    ∀ (d : List (α × β)) (k : α) (v : β), k ∉ alKeys d →
      alInsert d k v = d ++ [(k, v)]
  | [], k, v, _ => rfl
  | (a, b) :: rest, k, v, hk => by
    rw [alKeys_cons, List.mem_cons] at hk
    push_neg at hk
    rw [alInsert, if_neg (fun h => hk.1 h.symm),
      alInsert_fresh rest k v hk.2]
    rfl

theorem alGet?_eq_none_iff {α β : Type} [DecidableEq α] :
    ∀ (d : List (α × β)) (w : α), alGet? d w = none ↔ w ∉ alKeys d
  | [], w => by simp [alGet?, alKeys]
  | (a, b) :: rest, w => by
    by_cases h : a = w
    · rw [alGet?_cons_eq a b rest w h, alKeys_cons]
      simp [h]
    · rw [alGet?_cons_ne a b rest w h, alKeys_cons,
        alGet?_eq_none_iff rest w]
      simp [List.mem_cons, Ne.symm h]

theorem mem_alKeys_buildDictGo :
    ∀ (ws : List String) (d : List (String × ℕ)) (w : String),
      w ∈ alKeys (ws.foldl (fun d w => alInsert d w d.length) d) ↔
        w ∈ alKeys d ∨ w ∈ ws
  | [], d, w => by simp
  | w0 :: rest, d, w => by
    rw [List.foldl_cons, mem_alKeys_buildDictGo rest _ w,
      mem_alKeys_alInsert d w0 d.length w]
    simp only [List.mem_cons]
    tauto

theorem buildDictGo_get0 :
    ∀ (ws : List String) (d : List (String × ℕ)), 1 ≤ d.length →
      ∀ w, (alGet? (ws.foldl (fun d w => alInsert d w d.length) d) w =
          some 0 ↔ alGet? d w = some 0 ∧ w ∉ ws)
  | [], d, _, w => by simp
  | w0 :: rest, d, hd, w => by
    rw [List.foldl_cons]
    have hd' : 1 ≤ (alInsert d w0 d.length).length :=
      le_trans hd (length_alInsert_ge d w0 d.length)
    rw [buildDictGo_get0 rest _ hd' w, alGet?_alInsert d w0 d.length w]
    by_cases h : w = w0
    · rw [if_pos h]
      constructor
      · rintro ⟨hv, -⟩
        exfalso
        have : d.length = 0 := by
          injection hv
        omega
      · rintro ⟨-, hmem⟩
        exact absurd (by rw [h]; exact List.mem_cons_self _ _) hmem
    · rw [if_neg h]
      simp only [List.mem_cons]
      tauto

/-- The rank assigned to a token by the built dictionary is 0 exactly when
the token is outside the sorted top words (whether or not the literal token
`"UNK"` occurs in the corpus). -/
theorem buildDict_rank_zero (mc : List String) (w : String) :
    (alGet? (buildDict ("UNK" :: mc)) w).getD 0 = 0 ↔ w ∉ mc := by
  have hstart : buildDict ("UNK" :: mc) =
      mc.foldl (fun d w => alInsert d w d.length) [("UNK", 0)] := by
    rw [buildDict, List.foldl_cons]
    rfl
  rw [hstart]
  cases hget : alGet? (mc.foldl (fun d w => alInsert d w d.length)
      [("UNK", 0)]) w with
  | none =>
    rw [alGet?_eq_none_iff] at hget
    rw [mem_alKeys_buildDictGo mc [("UNK", 0)] w] at hget
    simp only [Option.getD_none]
    constructor
    · intro _
      exact fun hm => hget (Or.inr hm)
    · intro _
      trivial
  | some v =>
    simp only [Option.getD_some]
    have h0 := buildDictGo_get0 mc [("UNK", 0)] (by simp) w
    constructor
    · intro hv
      subst hv
      exact (h0.1 hget).2
    · intro hmem
      by_cases hu : w = "UNK"
      · have hu0 : alGet? [("UNK", 0)] w = some 0 := by
          rw [alGet?_cons_eq _ _ _ _ hu.symm]
        have h2 := h0.2 ⟨hu0, hmem⟩
        rw [hget] at h2
        injection h2 with hv
      · exfalso
        have hnone : alGet? (mc.foldl (fun d w => alInsert d w d.length)
            [("UNK", 0)]) w = none := by
          rw [alGet?_eq_none_iff, mem_alKeys_buildDictGo mc [("UNK", 0)] w]
          rintro (hk | hk)
          · exact hu (by simpa [alKeys] using hk)
          · exact hmem hk
        rw [hget] at hnone
        exact absurd hnone (by simp)

theorem encodeWords_go (dict : List (String × ℕ)) :
    ∀ (ws : List String) (acc1 : List ℕ) (acc2 : ℕ),
      ws.foldl (fun acc w =>
        ((acc.1 ++ [(alGet? dict w).getD 0] : List ℕ),
          if (alGet? dict w).getD 0 = 0 then acc.2 + 1 else acc.2))
        (acc1, acc2) =
      (acc1 ++ ws.map (fun w => (alGet? dict w).getD 0),
       acc2 + ws.countP (fun w => decide ((alGet? dict w).getD 0 = 0)))
  | [], acc1, acc2 => by simp
  | w0 :: rest, acc1, acc2 => by
    rw [List.foldl_cons, encodeWords_go dict rest _ _]
    dsimp only
    rw [List.countP_cons, List.map_cons]
    simp only [Prod.mk.injEq]
    constructor
    · simp [List.append_assoc]
    · by_cases h : (alGet? dict w0).getD 0 = 0
      · simp [h]
        omega
      · simp [h]

theorem encodeWords_eq (dict : List (String × ℕ)) (ws : List String) :
    encodeWords dict ws =
      (ws.map (fun w => (alGet? dict w).getD 0),
       ws.countP (fun w => decide ((alGet? dict w).getD 0 = 0))) := by
  rw [encodeWords]
  have := encodeWords_go dict ws [] 0
  simp only [List.nil_append, Nat.zero_add] at this
  exact this

/-- C7: `build_dataset` encodes every token of the input sequence, in
order, by its dictionary rank (so the output corpus has the input's
length); the encoded rank is 0 exactly for tokens outside the top `V - 1`
most frequent words; and the count recorded at index 0 (for rank 0) equals
the number of such tokens. -/
theorem C7_encode_by_rank (ws : List String) (n : ℕ) :
    (buildDataset ws n).1.length = ws.length
    ∧ (∀ i w, ws.get? i = some w →
        (buildDataset ws n).1.get? i =
          some ((alGet? (buildDataset ws n).2.2.1 w).getD 0)
        ∧ ((buildDataset ws n).1.get? i = some 0 ↔ w ∉ topWords ws n))
    ∧ (buildDataset ws n).2.1.get? 0 =
        some ("UNK", (ws.countP (fun w => decide (w ∉ topWords ws n)) : ℤ)) := by
  have hdict : (buildDataset ws n).2.2.1 =
      buildDict ("UNK" :: topWords ws n) := rfl
  have hdata : (buildDataset ws n).1 =
      (encodeWords (buildDict ("UNK" :: topWords ws n)) ws).1 := rfl
  have hcnt : (buildDataset ws n).2.1.get? 0 =
      some ("UNK",
        ((encodeWords (buildDict ("UNK" :: topWords ws n)) ws).2 : ℤ)) := rfl
  rw [encodeWords_eq] at hdata hcnt
  refine ⟨?_, ?_, ?_⟩
  · rw [hdata]
    exact List.length_map _ _
  · intro i w hi
    constructor
    · rw [hdata, hdict, List.get?_map, hi]
      rfl
    · rw [hdata, List.get?_map, hi]
      simp only [Option.map_some', Option.some.injEq]
      exact buildDict_rank_zero (topWords ws n) w
  · rw [hcnt]
    have hcong : ws.countP
        (fun w => decide ((alGet? (buildDict ("UNK" :: topWords ws n)) w).getD
          0 = 0)) =
        ws.countP (fun w => decide (w ∉ topWords ws n)) := by
      apply List.countP_congr
      intro w _
      rw [decide_eq_decide.2 (buildDict_rank_zero (topWords ws n) w)]
    rw [hcong]

/-- Witness for C7 on the token sequence `["a","b","a"]` with `V = 2`:
corpus `[1, 0, 1]`, token `"b"` (outside the top 1 words) encoded as 0, and
the rank-0 count equals 1. -/
theorem C7_encode_by_rank_witness :
    (buildDataset ["a", "b", "a"] 2).1.length = 3
    ∧ ((buildDataset ["a", "b", "a"] 2).1.get? 1 = some 0 ↔
        "b" ∉ topWords ["a", "b", "a"] 2)
    ∧ (buildDataset ["a", "b", "a"] 2).2.1.get? 0 = some ("UNK", (1 : ℤ)) :=
  ⟨(C7_encode_by_rank ["a", "b", "a"] 2).1,
   ((C7_encode_by_rank ["a", "b", "a"] 2).2.1 1 "b" rfl).2,
   (C7_encode_by_rank ["a", "b", "a"] 2).2.2⟩

theorem alKeys_counterAdd :
    ∀ (c : List (String × ℕ)) (w : String),
      alKeys (counterAdd c w) =
        if w ∈ alKeys c then alKeys c else alKeys c ++ [w]
  | [], w => by simp [counterAdd, alKeys]
  | (a, b) :: rest, w => by
    by_cases hp : a = w
    · subst hp
      rw [counterAdd, if_pos rfl, alKeys_cons, alKeys_cons,
        if_pos (List.mem_cons_self a (alKeys rest))]
    · rw [counterAdd, if_neg hp, alKeys_cons, alKeys_cons,
        alKeys_counterAdd rest w]
      by_cases hm : w ∈ alKeys rest
      · rw [if_pos hm, if_pos (List.mem_cons_of_mem a hm)]
      · rw [if_neg hm, if_neg (by
          rw [List.mem_cons]
          rintro (h | h)
          · exact hp h.symm
          · exact hm h)]
        rfl

theorem counterGo_keys_nodup :
    ∀ (ws : List String) (c : List (String × ℕ)),
      (alKeys c).Nodup → (alKeys (ws.foldl counterAdd c)).Nodup
  | [], c, h => h
  | w :: rest, c, h => by
    rw [List.foldl_cons]
    apply counterGo_keys_nodup rest
    rw [alKeys_counterAdd]
    by_cases hw : w ∈ alKeys c
    · rw [if_pos hw]
      exact h
    · rw [if_neg hw]
      simp [List.nodup_append, h, hw]

theorem insertDesc_perm (x : String × ℕ) :
    ∀ l : List (String × ℕ), (insertDesc x l).Perm (x :: l)
  | [] => List.Perm.refl _
  | y :: ys => by
    rw [insertDesc]
    by_cases h : y.2 ≤ x.2
    · rw [if_pos h]
    · rw [if_neg h]
      exact ((insertDesc_perm x ys).cons y).trans (List.Perm.swap x y ys)

theorem sortDesc_perm : ∀ l : List (String × ℕ), (sortDesc l).Perm l
  | [] => List.Perm.refl _
  | x :: xs =>
    (insertDesc_perm x (sortDesc xs)).trans ((sortDesc_perm xs).cons x)

theorem topWords_nodup (ws : List String) (n : ℕ) : (topWords ws n).Nodup := by
  rw [topWords, mostCommon]
  have hc : ((pyCounter ws).map Prod.fst).Nodup :=
    counterGo_keys_nodup ws [] (by simp [alKeys])
  have hsort : ((sortDesc (pyCounter ws)).map Prod.fst).Nodup :=
    ((sortDesc_perm (pyCounter ws)).map Prod.fst).nodup_iff.2 hc
  rw [List.map_take]
  exact (List.take_sublist _ _).nodup hsort

/-- The dictionary entries produced by consecutive fresh inserts starting
at value `n`: `(w₀, n), (w₁, n+1), …`. -/
def wsIdx (n : ℕ) : List String → List (String × ℕ)
  | [] => []
  | w :: rest => (w, n) :: wsIdx (n + 1) rest

/-- The reverse-dictionary entries `(n, w₀), (n+1, w₁), …`. -/
def idxWs (n : ℕ) : List String → List (ℕ × String)
  | [] => []
  | w :: rest => (n, w) :: idxWs (n + 1) rest

theorem buildDict_nodup_eq :
    ∀ (ws : List String) (d : List (String × ℕ)),
      (∀ w ∈ ws, w ∉ alKeys d) → ws.Nodup →
      ws.foldl (fun d w => alInsert d w d.length) d = d ++ wsIdx d.length ws
  | [], d, _, _ => by simp [wsIdx]
  | w :: rest, d, hfresh, hnod => by
    rw [List.foldl_cons, alInsert_fresh d w d.length (hfresh w (List.mem_cons_self _ _))]
    have hfresh' : ∀ u ∈ rest, u ∉ alKeys (d ++ [(w, d.length)]) := by
      intro u hu hmem
      have hkeys : alKeys (d ++ [(w, d.length)]) = alKeys d ++ [w] := by
        simp [alKeys]
      rw [hkeys, List.mem_append] at hmem
      rcases hmem with h | h
      · exact hfresh u (List.mem_cons_of_mem w hu) h
      · have hu_eq : u = w := by simpa using h
        exact (List.nodup_cons.1 hnod).1 (hu_eq ▸ hu)
    rw [buildDict_nodup_eq rest _ hfresh' (List.nodup_cons.1 hnod).2]
    simp [wsIdx, List.append_assoc, List.length_append]

theorem buildRev_fresh_eq :
    ∀ (cws : List String) (n : ℕ) (r : List (ℕ × String)),
      (∀ p ∈ r, p.1 < n) →
      (wsIdx n cws).foldl (fun r p => alInsert r p.2 p.1) r = r ++ idxWs n cws
  | [], n, r, _ => by simp [wsIdx, idxWs]
  | w :: rest, n, r, hlt => by
    rw [wsIdx, List.foldl_cons]
    have hfresh : (n : ℕ) ∉ alKeys r := by
      intro hmem
      obtain ⟨p, hp, hpe⟩ := List.mem_map.1 hmem
      exact absurd (hpe ▸ hlt p hp) (lt_irrefl n)
    have hstep : alInsert r ((w, n) : String × ℕ).2 ((w, n) : String × ℕ).1 =
        r ++ [(n, w)] := alInsert_fresh r n w hfresh
    rw [hstep]
    have hlt' : ∀ p ∈ r ++ [(n, w)], p.1 < n + 1 := by
      intro p hp
      rcases List.mem_append.1 hp with h | h
      · exact lt_trans (hlt p h) (Nat.lt_succ_self n)
      · have : p = (n, w) := by simpa using h
        rw [this]
        exact Nat.lt_succ_self n
    rw [buildRev_fresh_eq rest (n + 1) _ hlt']
    simp [idxWs, List.append_assoc]

theorem alKeys_wsIdx : ∀ (cws : List String) (n : ℕ),
    alKeys (wsIdx n cws) = cws
  | [], _ => rfl
  | w :: rest, n => by
    rw [wsIdx, alKeys_cons, alKeys_wsIdx rest (n + 1)]

theorem alGet?_wsIdx :
    ∀ (cws : List String) (n j : ℕ) (w : String), cws.Nodup →
      cws.get? j = some w → alGet? (wsIdx n cws) w = some (n + j)
  | [], n, j, w, _, h => by simp at h
  | w0 :: rest, n, 0, w, hnod, h => by
    have hw : w0 = w := by simpa [List.get?] using h
    rw [wsIdx, alGet?_cons_eq w0 n _ w hw, Nat.add_zero]
  | w0 :: rest, n, j + 1, w, hnod, h => by
    have hget : rest.get? j = some w := by simpa [List.get?] using h
    have hw : w ∈ rest := List.get?_mem hget
    have hne : w0 ≠ w := fun he => (List.nodup_cons.1 hnod).1 (he ▸ hw)
    rw [wsIdx, alGet?_cons_ne w0 n _ w hne,
      alGet?_wsIdx rest (n + 1) j w (List.nodup_cons.1 hnod).2 hget]
    congr 1
    omega

theorem alGet?_idxWs :
    ∀ (cws : List String) (n j : ℕ) (w : String),
      cws.get? j = some w → alGet? (idxWs n cws) (n + j) = some w
  | [], n, j, w, h => by simp at h
  | w0 :: rest, n, 0, w, h => by
    have hw : w0 = w := by simpa [List.get?] using h
    rw [idxWs, alGet?_cons_eq n w0 _ (n + 0) (by omega), hw]
  | w0 :: rest, n, j + 1, w, h => by
    have hget : rest.get? j = some w := by simpa [List.get?] using h
    rw [idxWs, alGet?_cons_ne n w0 _ (n + (j + 1)) (by omega),
      show n + (j + 1) = (n + 1) + j by omega]
    exact alGet?_idxWs rest (n + 1) j w hget

/-- C6 (amended): for every token sequence in which the literal token
`"UNK"` does not end up among the top `V - 1` most frequent words, the
forward and reverse vocabulary mappings are mutually inverse
(`reverse_dictionary[dictionary[word]] == word` for every word stored in
the dictionary) and rank 0 maps back to the sentinel `"UNK"`.  (When the
corpus does contain `"UNK"` as a token in the top words, the duplicate
insert collides the ranks and the round trip fails — see the
counterexample.) -/
theorem C6_roundtrip (ws : List String) (n : ℕ)
    (hunk : "UNK" ∉ topWords ws n) :
    (∀ w, w ∈ alKeys (buildDataset ws n).2.2.1 →
      alGet? (buildDataset ws n).2.2.2
        ((alGet? (buildDataset ws n).2.2.1 w).getD 0) = some w)
    ∧ alGet? (buildDataset ws n).2.2.2 0 = some "UNK" := by
  have hnodup : ("UNK" :: topWords ws n).Nodup :=
    List.nodup_cons.2 ⟨hunk, topWords_nodup ws n⟩
  have hdictB : buildDict ("UNK" :: topWords ws n) =
      wsIdx 0 ("UNK" :: topWords ws n) := by
    rw [buildDict,
      buildDict_nodup_eq ("UNK" :: topWords ws n) [] (by simp [alKeys]) hnodup]
    rfl
  have hdict : (buildDataset ws n).2.2.1 =
      wsIdx 0 ("UNK" :: topWords ws n) := hdictB
  have hrev : (buildDataset ws n).2.2.2 =
      idxWs 0 ("UNK" :: topWords ws n) := by
    have h1 : (buildDataset ws n).2.2.2 =
        buildRev (buildDict ("UNK" :: topWords ws n)) := rfl
    rw [h1, buildRev, hdictB,
      buildRev_fresh_eq ("UNK" :: topWords ws n) 0 [] (by simp)]
    rfl
  constructor
  · intro w hw
    rw [hdict] at hw
    rw [alKeys_wsIdx] at hw
    obtain ⟨j, hj⟩ := List.get?_of_mem hw
    rw [hdict, hrev, alGet?_wsIdx _ 0 j w hnodup hj]
    exact alGet?_idxWs _ 0 j w hj
  · rw [hrev]
    have h0 : ("UNK" :: topWords ws n).get? 0 = some "UNK" := rfl
    have h := alGet?_idxWs ("UNK" :: topWords ws n) 0 0 "UNK" h0
    simpa using h

/-- Witness for C6 (amended) on the token sequence `["a","b","a"]` with
`V = 2`: the round trip holds for the stored word `"a"`, and rank 0 maps
back to `"UNK"`. -/
theorem C6_roundtrip_witness :
    alGet? (buildDataset ["a", "b", "a"] 2).2.2.2
      ((alGet? (buildDataset ["a", "b", "a"] 2).2.2.1 "a").getD 0) = some "a"
    ∧ alGet? (buildDataset ["a", "b", "a"] 2).2.2.2 0 = some "UNK" :=
  ⟨(C6_roundtrip ["a", "b", "a"] 2 (by decide)).1 "a" (by decide),
   (C6_roundtrip ["a", "b", "a"] 2 (by decide)).2⟩
